import Mathlib

/-!
Shallow embedding of `Baumple/line_counter` (src/src/main.rs), a command-line
utility that counts lines (and optionally characters) in a file or a directory
tree.  Strings are modelled as lists of Unicode code points (`List Char`),
matching Rust's `str` / `String.chars()` view.  Filesystem contents are
modelled as an explicit tree; fallible operations return `Except`.
-/

namespace LineCounter

/-- A Rust string, viewed as its sequence of Unicode scalar values. -/
abbrev RStr := List Char

/-- Rust `char::is_whitespace`: the Unicode `White_Space` property. -/
def rustIsWhitespace (c : Char) : Bool :=
  (0x9 ≤ c.toNat && c.toNat ≤ 0xD) || c.toNat = 0x20 || c.toNat = 0x85 ||
  c.toNat = 0xA0 || c.toNat = 0x1680 ||
  (0x2000 ≤ c.toNat && c.toNat ≤ 0x200A) || c.toNat = 0x2028 ||
  c.toNat = 0x2029 || c.toNat = 0x202F || c.toNat = 0x205F || c.toNat = 0x3000

/-- Rust `str::trim`: strip leading and trailing whitespace. -/
def rsTrim (l : RStr) : RStr :=
  ((l.dropWhile rustIsWhitespace).reverse.dropWhile rustIsWhitespace).reverse

/-- Strip one trailing carriage return, as Rust `lines()` does on each
`\n`-terminated piece (so that `\r\n` works as a line terminator). -/
def stripCR (l : RStr) : RStr :=
  if l.getLast? = some '\r' then l.dropLast else l

/-- Worker for `rsLines`: `acc` holds the current line, reversed. -/
def rsLinesAux (acc : RStr) : RStr → List RStr
  | [] => if acc = [] then [] else [acc.reverse]
  | c :: rest =>
      if c = '\n' then stripCR acc.reverse :: rsLinesAux [] rest
      else rsLinesAux (c :: acc) rest

/-- Rust `str::lines()`: split at `\n`, treating a preceding `\r` as part of
the terminator; a trailing unterminated fragment is a line of its own (and
keeps any trailing `\r`); the empty string has no lines. -/
def rsLines (s : RStr) : List RStr := rsLinesAux [] s

/-- Number of line-terminator characters (`\n`, and the `\r` of each `\r\n`)
that `rsLines` strips from `s`. -/
def termCount : RStr → Nat
  | [] => 0
  | [c] => if c = '\n' then 1 else 0
  | c :: c2 :: rest =>
      if c = '\r' ∧ c2 = '\n' then 2 + termCount rest
      else if c = '\n' then 1 + termCount (c2 :: rest)
      else termCount (c2 :: rest)

/-- The parsed command-line arguments (struct `Args` in main.rs).
`file_path` is omitted: the root is passed to the functions explicitly. -/
structure Args where
  skip_empty_lines : Bool
  recursive : Bool
  count_chars : Bool
  ignored : List RStr
deriving Repr, DecidableEq

/-- The per-file counting loop shared by `main` (single-file case) and
`get_dir_lines` (lines 80-97 and 162-179 of main.rs): given the file's full
text, return the `(lines, characters)` contribution.  With
`skip_empty_lines`, a line counts only if its trimmed content is non-empty;
characters are accumulated only under `count_chars`. -/
def fileCounts (args : Args) (buffer : RStr) : Nat × Nat :=
  if args.skip_empty_lines then
    (rsLines buffer).foldl
      (fun acc line =>
        if !(rsTrim line).isEmpty then
          (acc.1 + 1, if args.count_chars then acc.2 + line.length else acc.2)
        else acc)
      (0, 0)
  else
    ((rsLines buffer).length,
     if args.count_chars then
       (rsLines buffer).foldl (fun n line => n + line.length) 0
     else 0)

/-- A filesystem node.  An entry's name is `Except.error ()` when it cannot
be represented as valid text (`OsStr::to_str` returning `None`); a file's
content is `Except.error ()` when opening/reading it fails.  A directory
holds the items yielded by `read_dir` iteration: `Except.error ()` stands
for an `Err` item produced during the listing. -/
inductive Node where
  | file (name : Except Unit RStr) (content : Except Unit RStr)
  | dir (name : Except Unit RStr) (entries : List (Except Unit Node))

/-- The (possibly undecodable) base name of a node. -/
def Node.name : Node → Except Unit RStr
  | .file n _ => n
  | .dir n _ => n

/-- One line printed to stdout by `get_dir_lines`: the directory header
`"{indent}{path}:"`, a per-file summary `"{indent}> {name}: {lines}"`, or the
literal `"  NICE!"` easter-egg line. -/
inductive OutEvent where
  | header (depth : Nat) (path : RStr)
  | fileLine (depth : Nat) (name : RStr) (lines : Nat)
  | nice
deriving Repr, DecidableEq

/-- The error enum of main.rs. -/
inductive Error where
  | LcIoError
  | FileNameError
deriving Repr, DecidableEq

/-- First loop of `get_dir_lines` (lines 137-191 of main.rs), restricted to
its non-deferred work: walk the listing in order, skipping `Err` items (the
`.flatten()`), decoding each entry's name (abort with `FileNameError` on
failure), skipping ignored names and directories, and counting each remaining
file (abort with `LcIoError` if its content is unreadable), printing the
running line total after each file and `NICE!` whenever it equals 69.
`lines`/`chars` are the loop's accumulators; the returned event list is what
this loop prints from here on. -/
def pass1 (args : Args) (depth : Nat) (lines chars : Nat) :
    List (Except Unit Node) → Except Error (Nat × Nat × List OutEvent)
  | [] => .ok (lines, chars, [])
  | .error _ :: rest => pass1 args depth lines chars rest
  | .ok n :: rest =>
      match n.name with
      | .error _ => .error .FileNameError
      | .ok name =>
          if name ∈ args.ignored then pass1 args depth lines chars rest
          else
            match n with
            | .dir _ _ => pass1 args depth lines chars rest
            | .file _ content =>
                match content with
                | .error _ => .error .LcIoError
                | .ok buffer =>
                    let cnt := fileCounts args buffer
                    let l2 := lines + cnt.1
                    match pass1 args depth l2 (chars + cnt.2) rest with
                    | .error e => .error e
                    | .ok (resL, resC, evs) =>
                        .ok (resL, resC, .fileLine depth name l2 ::
                          (if l2 = 69 then OutEvent.nice :: evs else evs))

mutual

/-- `get_dir_lines` (main.rs lines 125-204): count all non-ignored files in
the directory `entries` at `file_path`, and (when `args.recursive`) in its
non-ignored subdirectories, which the source defers to a `maybe_dirs` list
processed after the files.  Returns the aggregate `(lines, characters)` and
the printed output.  `pass2` models the second loop by a second structural
scan of the listing, visiting exactly the entries the source pushed to
`maybe_dirs`, in order. -/
def get_dir_lines (file_path : RStr) (args : Args) (depth : Nat)
    (entries : List (Except Unit Node)) :
    Except Error (Nat × Nat × List OutEvent) :=
  match pass1 args depth 0 0 entries with
  | .error e => .error e
  | .ok (lines, chars, evs1) =>
      match pass2 file_path args depth entries with
      | .error e => .error e
      | .ok (l2, c2, evs2) =>
          .ok (lines + l2, chars + c2, .header depth file_path :: (evs1 ++ evs2))
termination_by (sizeOf entries, 1)

/-- Second loop of `get_dir_lines` (main.rs lines 192-201): recurse into each
deferred subdirectory at `depth + 1`, accumulating totals and output.  A
subdirectory is deferred exactly when it is recursive mode, its name decodes
and is not ignored; `Err` listing items were flattened away. -/
def pass2 (file_path : RStr) (args : Args) (depth : Nat)
    (entries : List (Except Unit Node)) :
    Except Error (Nat × Nat × List OutEvent) :=
  match entries with
  | [] => .ok (0, 0, [])
  | .error _ :: rest => pass2 file_path args depth rest
  | .ok (.file _ _) :: rest => pass2 file_path args depth rest
  | .ok (.dir nm sub) :: rest =>
      if args.recursive then
        match nm with
        | .error _ => .error .FileNameError
        | .ok name =>
            if name ∈ args.ignored then pass2 file_path args depth rest
            else
              match get_dir_lines (file_path ++ '/' :: name) args (depth + 1) sub with
              | .error e => .error e
              | .ok (l, c, evs) =>
                  match pass2 file_path args depth rest with
                  | .error e2 => .error e2
                  | .ok (l2, c2, evs2) => .ok (l + l2, c + c2, evs ++ evs2)
      else pass2 file_path args depth rest
termination_by (sizeOf entries, 0)

end

/-- The scan loop of `Args::with_ignored` (main.rs lines 37-50): walk the
root directory's listing (with `Err` items flattened away); every entry whose
name equals `.lcignore` replaces the current ignore list by the file's lines,
each trimmed (empty strings from blank lines included, since the source does
not filter them), with `.lcignore` appended.  Opening a directory named
`.lcignore` and reading it as a file fails, hence `LcIoError`; metadata is
not consulted by this loop. -/
def withIgnoredScan (ignored : List RStr) :
    List (Except Unit Node) → Except Error (List RStr)
  | [] => .ok ignored
  | .error _ :: rest => withIgnoredScan ignored rest
  | .ok (.file (.ok name) content) :: rest =>
      if name = ".lcignore".toList then
        match content with
        | .error _ => .error .LcIoError
        | .ok text =>
            withIgnoredScan
              ((rsLines text).map rsTrim ++ [".lcignore".toList]) rest
      else withIgnoredScan ignored rest
  | .ok (.file (.error _) _) :: rest => withIgnoredScan ignored rest
  | .ok (.dir (.ok name) _) :: rest =>
      if name = ".lcignore".toList then .error .LcIoError
      else withIgnoredScan ignored rest
  | .ok (.dir (.error _) _) :: rest => withIgnoredScan ignored rest

/-- `Args::with_ignored` (main.rs lines 33-52): when the root is a file, the
command-line `ignored` list is returned unchanged; when it is a directory,
its listing is scanned for `.lcignore`. -/
def with_ignored (cliIgnored : List RStr) (root : Node) :
    Except Error (List RStr) :=
  match root with
  | .file _ _ => .ok cliIgnored
  | .dir _ entries => withIgnoredScan cliIgnored entries

mutual

/-- Reference totals: the sum, over every non-ignored (and readable,
decodable) file in the tree, of its individual `fileCounts`; entries inside
an ignored or undecodable directory are not reached and contribute nothing,
and neither do `Err` listing items. -/
def treeTotals (args : Args) : List (Except Unit Node) → Nat × Nat
  | [] => (0, 0)
  | .error _ :: rest => treeTotals args rest
  | .ok n :: rest =>
      let a := nodeTotals args n
      let b := treeTotals args rest
      (a.1 + b.1, a.2 + b.2)
termination_by entries => (sizeOf entries, 0)

/-- Contribution of one node to `treeTotals`. -/
def nodeTotals (args : Args) : Node → Nat × Nat
  | .file nm content =>
      match nm, content with
      | .ok name, .ok buffer =>
          if name ∈ args.ignored then (0, 0) else fileCounts args buffer
      | _, _ => (0, 0)
  | .dir nm sub =>
      match nm with
      | .ok name =>
          if name ∈ args.ignored then (0, 0) else treeTotals args sub
      | .error _ => (0, 0)
termination_by n => (sizeOf n, 1)

end

/-- The per-level file totals: what the first loop of `get_dir_lines`
accumulates at one directory level (files directly inside, ignoring
subdirectories). -/
def levelTotals (args : Args) : List (Except Unit Node) → Nat × Nat
  | [] => (0, 0)
  | .error _ :: rest => levelTotals args rest
  | .ok (.dir _ _) :: rest => levelTotals args rest
  | .ok (.file nm content) :: rest =>
      let b := levelTotals args rest
      match nm, content with
      | .ok name, .ok buffer =>
          if name ∈ args.ignored then b
          else
            let c := fileCounts args buffer
            (c.1 + b.1, c.2 + b.2)
      | _, _ => b

/-- Checks the placement of `NICE!` lines in an output trace: every `nice`
event immediately follows a file summary whose running total is 69, and
every file summary whose running total is 69 is immediately followed by a
`nice` event. -/
def niceWellPlaced : List OutEvent → Bool
  | [] => true
  | .fileLine _ _ l :: .nice :: rest => l = 69 && niceWellPlaced rest
  | .fileLine _ _ l :: rest => !(l = 69) && niceWellPlaced rest
  | .nice :: _ => false
  | .header _ _ :: rest => niceWellPlaced rest

/-- The lines of `buffer` that the counting loop counts: all split lines, or
only those whose trimmed content is non-empty under `skip_empty_lines`. -/
def countedLines (args : Args) (buffer : RStr) : List RStr :=
  if args.skip_empty_lines then
    (rsLines buffer).filter (fun l => !(rsTrim l).isEmpty)
  else rsLines buffer

/-- Sum of the code-point counts of a list of lines. -/
def sumLens (ls : List RStr) : Nat := (ls.map List.length).sum

/-- Whether one listing item is an entry named `.lcignore` (an `Err` item
or an undecodable name never is). -/
def lcNameHit : Except Unit Node → Bool
  | .ok n =>
      match n.name with
      | .ok name => decide (name = ".lcignore".toList)
      | .error _ => false
  | .error _ => false

/-- Whether some (flattened) entry of a listing is named `.lcignore`. -/
def hasLcignore : List (Except Unit Node) → Bool
  | [] => false
  | x :: rest => lcNameHit x || hasLcignore rest

/-- The subtree totals contributed by the non-ignored subdirectories of one
listing: what the second loop of `get_dir_lines` adds in recursive mode. -/
def subTotals (args : Args) : List (Except Unit Node) → Nat × Nat
  | [] => (0, 0)
  | .error _ :: rest => subTotals args rest
  | .ok (.file _ _) :: rest => subTotals args rest
  | .ok (.dir nm sub) :: rest =>
      let b := subTotals args rest
      match nm with
      | .ok name =>
          if name ∈ args.ignored then b
          else
            let a := treeTotals args sub
            (a.1 + b.1, a.2 + b.2)
      | .error _ => b

/-- Well-formed output blocks: headers, file summaries with running total
other than 69, and file summaries with running total 69 followed
immediately by the `NICE!` line. -/
inductive NiceBlocks : List OutEvent → Prop
  | nil : NiceBlocks []
  | header (d : Nat) (p : RStr) {rest : List OutEvent} :
      NiceBlocks rest → NiceBlocks (.header d p :: rest)
  | fileNe (d : Nat) (n : RStr) (l : Nat) {rest : List OutEvent} :
      l ≠ 69 → NiceBlocks rest → NiceBlocks (.fileLine d n l :: rest)
  | file69 (d : Nat) (n : RStr) {rest : List OutEvent} :
      NiceBlocks rest → NiceBlocks (.fileLine d n 69 :: .nice :: rest)

/-- Forget the character totals of a walk result, keeping line totals,
output events and errors. -/
def dropChars :
    Except Error (Nat × Nat × List OutEvent) → Except Error (Nat × List OutEvent)
  | .error e => .error e
  | .ok (l, _, evs) => .ok (l, evs)

/-!  Theorems.  -/

theorem foldl_sum_lens (ls : List RStr) (a : Nat) :
    ls.foldl (fun n line => n + line.length) a = a + sumLens ls := by
  induction ls generalizing a with
  | nil => simp [sumLens]
  | cons l rest ih => simp [sumLens, ih]; omega

theorem foldl_count (p : RStr → Bool) (cc : Bool) (ls : List RStr)
    (a b : Nat) :
    ls.foldl
      (fun acc line =>
        if p line then
          (acc.1 + 1, if cc then acc.2 + line.length else acc.2)
        else acc) (a, b)
    = (a + (ls.filter p).length,
       if cc then b + sumLens (ls.filter p) else b) := by
  induction ls generalizing a b with
  | nil => simp [sumLens]
  | cons l rest ih =>
      by_cases hp : p l
      · rw [List.foldl_cons]
        simp only [hp, if_true]
        rw [ih]
        cases cc <;> simp [sumLens, List.filter_cons_of_pos, hp] <;> omega
      · rw [List.foldl_cons, if_neg hp, ih,
          List.filter_cons_of_neg (by simp [hp])]

theorem fileCounts_eq (args : Args) (buffer : RStr) :
    fileCounts args buffer
      = ((countedLines args buffer).length,
         if args.count_chars then sumLens (countedLines args buffer) else 0) := by
  unfold fileCounts countedLines
  by_cases hs : args.skip_empty_lines
  · simp only [hs, if_true]
    rw [foldl_count (fun l => !(rsTrim l).isEmpty) args.count_chars
      (rsLines buffer) 0 0]
    simp
  · simp only [hs, Bool.false_eq_true, if_false]
    rw [foldl_sum_lens]
    simp

theorem mem_stripCR {c : Char} {l : RStr} (h : c ∈ stripCR l) : c ∈ l := by
  unfold stripCR at h
  split at h
  · exact (List.dropLast_sublist l).mem h
  · exact h

theorem rsLinesAux_cons_newline (acc rest : RStr) :
    rsLinesAux acc ('\n' :: rest)
      = stripCR acc.reverse :: rsLinesAux [] rest := by
  simp [rsLinesAux]

theorem rsLinesAux_cons_other {c : Char} (acc rest : RStr) (hc : c ≠ '\n') :
    rsLinesAux acc (c :: rest) = rsLinesAux (c :: acc) rest := by
  simp [rsLinesAux, hc]

theorem rsLinesAux_no_newline (s : RStr) :
    ∀ acc : RStr, ('\n' : Char) ∉ acc →
      ∀ l ∈ rsLinesAux acc s, ('\n' : Char) ∉ l := by
  induction s with
  | nil =>
      intro acc hacc l hl
      by_cases ha : acc = ([] : RStr)
      · simp [rsLinesAux, ha] at hl
      · simp only [rsLinesAux, if_neg ha, List.mem_singleton] at hl
        subst hl
        simpa using hacc
  | cons c rest ih =>
      intro acc hacc l hl
      by_cases hc : c = '\n'
      · subst hc
        rw [rsLinesAux_cons_newline, List.mem_cons] at hl
        rcases hl with hl | hl
        · subst hl
          intro hmem
          exact hacc (by simpa using mem_stripCR hmem)
        · exact ih [] (by simp) l hl
      · rw [rsLinesAux_cons_other acc rest hc] at hl
        refine ih (c :: acc) ?_ l hl
        simp only [List.mem_cons, not_or]
        exact ⟨fun h => hc h.symm, hacc⟩

theorem rsLines_no_newline (s : RStr) :
    ∀ l ∈ rsLines s, ('\n' : Char) ∉ l :=
  rsLinesAux_no_newline s [] (by simp)

theorem termCount_newline (r : RStr) :
    termCount ('\n' :: r) = 1 + termCount r := by
  cases r with
  | nil => simp [termCount]
  | cons c2 r2 => simp [termCount]

theorem termCount_other {c : Char} (r : RStr) (hc : c ≠ '\n')
    (hcr : ¬(c = '\r' ∧ r.head? = some '\n')) :
    termCount (c :: r) = termCount r := by
  cases r with
  | nil => simp [termCount, hc]
  | cons c2 r2 =>
      have h2 : ¬(c = '\r' ∧ c2 = '\n') := by simpa using hcr
      simp [termCount, hc, h2]

theorem stripCR_length (l : RStr) :
    (stripCR l).length
      = if l.getLast? = some '\r' then l.length - 1 else l.length := by
  unfold stripCR
  split <;> simp_all [List.length_dropLast]

theorem rsLinesAux_decomp (s : RStr) :
    ∀ acc : RStr,
      sumLens (rsLinesAux acc s) + termCount s
        + (if s.head? = some '\n' ∧ acc.head? = some '\r' then 1 else 0)
      = acc.length + s.length := by
  induction s with
  | nil =>
      intro acc
      by_cases ha : acc = ([] : RStr) <;>
        simp [rsLinesAux, ha, termCount, sumLens]
  | cons c rest ih =>
      intro acc
      by_cases hc : c = '\n'
      · subst hc
        rw [rsLinesAux_cons_newline, termCount_newline]
        have hbase : sumLens (rsLinesAux [] rest) + termCount rest
            = rest.length := by
          have h := ih ([] : RStr)
          simpa using h
        have hsum : sumLens (stripCR acc.reverse :: rsLinesAux [] rest)
            = (stripCR acc.reverse).length + sumLens (rsLinesAux [] rest) := by
          simp [sumLens]
        have hlen := stripCR_length acc.reverse
        rw [List.getLast?_reverse, List.length_reverse] at hlen
        rw [hsum]
        by_cases hr : acc.head? = some '\r'
        · have hpos : 1 ≤ acc.length := by
            cases acc with
            | nil => simp at hr
            | cons x xs => simp
          rw [if_pos hr] at hlen
          have hcorr : (if (('\n' : Char) :: rest).head? = some '\n'
              ∧ acc.head? = some '\r' then 1 else 0) = 1 := by
            simp [hr]
          rw [hcorr, hlen, List.length_cons]
          omega
        · rw [if_neg hr] at hlen
          have hcorr : (if (('\n' : Char) :: rest).head? = some '\n'
              ∧ acc.head? = some '\r' then 1 else 0) = 0 := by
            simp [hr]
          rw [hcorr, hlen, List.length_cons]
          omega
      · rw [rsLinesAux_cons_other acc rest hc]
        have hcorr : (if (c :: rest).head? = some '\n'
            ∧ acc.head? = some '\r' then 1 else 0) = 0 := by
          simp [hc]
        rw [hcorr]
        have hstep := ih (c :: acc)
        by_cases hb : c = '\r' ∧ rest.head? = some '\n'
        · obtain ⟨hcr, hrh⟩ := hb
          subst hcr
          cases rest with
          | nil => simp at hrh
          | cons c2 rest2 =>
              have hc2 : c2 = '\n' := by simpa using hrh
              subst hc2
              have htc : termCount ('\r' :: '\n' :: rest2)
                  = 2 + termCount rest2 := by
                simp [termCount]
              have htc2 : termCount ('\n' :: rest2) = 1 + termCount rest2 :=
                termCount_newline rest2
              rw [htc]
              have hstepcorr : (if (('\n' : Char) :: rest2).head? = some '\n'
                  ∧ (('\r' : Char) :: acc).head? = some '\r'
                  then 1 else 0) = 1 := by
                simp
              rw [hstepcorr, htc2] at hstep
              simp only [List.length_cons] at hstep ⊢
              omega
        · have htc := termCount_other rest hc hb
          rw [htc]
          have hstepcorr : (if rest.head? = some '\n'
              ∧ (c :: acc).head? = some '\r' then 1 else 0) = 0 := by
            by_cases h1 : rest.head? = some '\n'
            · have h2 : c ≠ '\r' := fun h => hb ⟨h, h1⟩
              simp [h2]
            · simp [h1]
          rw [hstepcorr] at hstep
          simp only [List.length_cons] at hstep ⊢
          omega

theorem rsLines_decomp (s : RStr) :
    sumLens (rsLines s) + termCount s = s.length := by
  have h := rsLinesAux_decomp s ([] : RStr)
  simpa [rsLines] using h

theorem rsLinesAux_of_no_newline (s : RStr) :
    ∀ acc : RStr, ('\n' : Char) ∉ s →
      rsLinesAux acc s
        = if acc = [] ∧ s = [] then [] else [acc.reverse ++ s] := by
  induction s with
  | nil =>
      intro acc _
      unfold rsLinesAux
      by_cases ha : acc = ([] : RStr) <;> simp [ha]
  | cons c rest ih =>
      intro acc hs
      have hc : c ≠ '\n' := by
        intro h
        exact hs (by simp [h])
      unfold rsLinesAux
      rw [if_neg hc, ih (c :: acc) (fun h => hs (List.mem_cons_of_mem _ h))]
      simp

theorem rsLines_fragment {frag : RStr} (hfrag : frag ≠ [])
    (hnl : ('\n' : Char) ∉ frag) : rsLines frag = [frag] := by
  rw [rsLines, rsLinesAux_of_no_newline frag [] hnl]
  simp [hfrag]

/-- C1: for any file text, the per-file counter returns exactly the number
K of split lines whose trimmed content is non-empty when skip-empty-lines
is enabled, and K + E (E the empty-or-whitespace-only lines) when it is
disabled; a trailing unterminated fragment counts as one line, and the
entirely empty text yields zero lines. -/
theorem claim_C1 (args : Args) (s frag : RStr) (hfrag : frag ≠ [])
    (hnl : ('\n' : Char) ∉ frag) :
    (fileCounts { args with skip_empty_lines := true } s).1
      = ((rsLines s).filter (fun l => !(rsTrim l).isEmpty)).length ∧
    (fileCounts { args with skip_empty_lines := false } s).1
      = ((rsLines s).filter (fun l => !(rsTrim l).isEmpty)).length
        + ((rsLines s).filter (fun l => (rsTrim l).isEmpty)).length ∧
    rsLines ([] : RStr) = [] ∧
    rsLines frag = [frag] := by
  refine ⟨?_, ?_, rfl, rsLines_fragment hfrag hnl⟩
  · rw [fileCounts_eq]
    simp [countedLines]
  · rw [fileCounts_eq]
    simp only [countedLines, Bool.false_eq_true, if_false]
    have h := List.length_eq_length_filter_add
      (l := rsLines s) (fun l => !(rsTrim l).isEmpty)
    simpa [Bool.not_not] using h

/-- Witness for C1, instantiated at `"a\n\n  \nb"` and fragment `"ab"`. -/
theorem claim_C1_witness :
    ("ab".toList ≠ ([] : RStr)) ∧ (('\n' : Char) ∉ "ab".toList) ∧
    ((fileCounts (⟨true, false, false, []⟩ : Args) "a\n\n  \nb".toList).1
      = ((rsLines "a\n\n  \nb".toList).filter
          (fun l => !(rsTrim l).isEmpty)).length ∧
     (fileCounts (⟨false, false, false, []⟩ : Args) "a\n\n  \nb".toList).1
      = ((rsLines "a\n\n  \nb".toList).filter
          (fun l => !(rsTrim l).isEmpty)).length
        + ((rsLines "a\n\n  \nb".toList).filter
          (fun l => (rsTrim l).isEmpty)).length ∧
     rsLines ([] : RStr) = [] ∧
     rsLines "ab".toList = ["ab".toList]) :=
  ⟨by decide, by decide,
    claim_C1 ⟨true, false, false, []⟩ "a\n\n  \nb".toList "ab".toList
      (by decide) (by decide)⟩

/-- C5: with character counting enabled, the character total is the sum of
the code-point counts of exactly the counted lines' un-trimmed text; the
stripped line terminators are never included (`\n` occurs in no line, and
the line lengths plus the stripped terminator characters account for the
whole text), and lines excluded by skip-empty-lines contribute nothing. -/
theorem claim_C5 (args : Args) (s : RStr) (hcc : args.count_chars = true) :
    (fileCounts args s).2 = sumLens (countedLines args s) ∧
    (∀ l ∈ rsLines s, ('\n' : Char) ∉ l) ∧
    sumLens (rsLines s) + termCount s = s.length ∧
    (args.skip_empty_lines = true →
      (fileCounts args s).2
        = sumLens ((rsLines s).filter (fun l => !(rsTrim l).isEmpty))) := by
  refine ⟨?_, rsLines_no_newline s, rsLines_decomp s, ?_⟩
  · rw [fileCounts_eq]
    simp [hcc]
  · intro hs
    rw [fileCounts_eq]
    simp [hcc, countedLines, hs]

/-- Witness for C5 at `"a\r\nbc\n \nd"` with both flags set. -/
theorem claim_C5_witness :
    ((⟨true, false, true, []⟩ : Args).count_chars = true) ∧
    ((fileCounts ⟨true, false, true, []⟩ "a\r\nbc\n \nd".toList).2
        = sumLens (countedLines ⟨true, false, true, []⟩ "a\r\nbc\n \nd".toList) ∧
     (∀ l ∈ rsLines "a\r\nbc\n \nd".toList, ('\n' : Char) ∉ l) ∧
     sumLens (rsLines "a\r\nbc\n \nd".toList) + termCount "a\r\nbc\n \nd".toList
        = "a\r\nbc\n \nd".toList.length ∧
     ((⟨true, false, true, []⟩ : Args).skip_empty_lines = true →
       (fileCounts ⟨true, false, true, []⟩ "a\r\nbc\n \nd".toList).2
         = sumLens ((rsLines "a\r\nbc\n \nd".toList).filter
             (fun l => !(rsTrim l).isEmpty)))) :=
  ⟨rfl, claim_C5 ⟨true, false, true, []⟩ "a\r\nbc\n \nd".toList rfl⟩

theorem pass1_append (args : Args) (depth : Nat)
    (xs ys : List (Except Unit Node)) :
    ∀ lines chars : Nat,
      pass1 args depth lines chars (xs ++ ys)
        = match pass1 args depth lines chars xs with
          | .error e => .error e
          | .ok (l2, c2, evs) =>
              match pass1 args depth l2 c2 ys with
              | .error e => .error e
              | .ok (resL, resC, evs2) => .ok (resL, resC, evs ++ evs2) := by
  induction xs with
  | nil =>
      intro lines chars
      simp only [List.nil_append, pass1]
      cases pass1 args depth lines chars ys with
      | error e => rfl
      | ok r => rfl
  | cons x rest ih =>
      intro lines chars
      cases x with
      | error u => simpa only [List.cons_append, pass1] using ih lines chars
      | ok n =>
          simp only [List.cons_append, pass1]
          cases hn : n.name with
          | error u => rfl
          | ok name =>
              by_cases hig : name ∈ args.ignored
              · simp only [if_pos hig]
                exact ih lines chars
              · simp only [if_neg hig]
                cases n with
                | dir nm sub => exact ih lines chars
                | file nm content =>
                    cases content with
                    | error u => rfl
                    | ok buffer =>
                        simp only [List.append_eq]
                        rw [ih]
                        cases pass1 args depth (lines + (fileCounts args buffer).1)
                            (chars + (fileCounts args buffer).2) rest with
                        | error e => rfl
                        | ok r =>
                            obtain ⟨L, C, evs⟩ := r
                            simp only
                            cases pass1 args depth L C ys with
                            | error e => rfl
                            | ok r2 =>
                                obtain ⟨L2, C2, evs2⟩ := r2
                                simp only
                                by_cases h69 : lines + (fileCounts args buffer).1 = 69 <;>
                                  simp [h69]

theorem pass2_cons_dir (path : RStr) (args : Args) (depth : Nat)
    (nm : Except Unit RStr) (sub rest : List (Except Unit Node)) :
    pass2 path args depth (.ok (.dir nm sub) :: rest)
      = if args.recursive then
          match nm with
          | .error _ => .error .FileNameError
          | .ok name =>
              if name ∈ args.ignored then pass2 path args depth rest
              else
                match get_dir_lines (path ++ '/' :: name) args (depth + 1) sub with
                | .error e => .error e
                | .ok (l, c, evs) =>
                    match pass2 path args depth rest with
                    | .error e2 => .error e2
                    | .ok (l2, c2, evs2) =>
                        .ok (l + l2, c + c2, evs ++ evs2)
        else pass2 path args depth rest := by
  rw [pass2.eq_def]

theorem pass2_append (path : RStr) (args : Args) (depth : Nat)
    (xs ys : List (Except Unit Node)) :
    pass2 path args depth (xs ++ ys)
      = match pass2 path args depth xs with
        | .error e => .error e
        | .ok (l, c, evs) =>
            match pass2 path args depth ys with
            | .error e => .error e
            | .ok (l2, c2, evs2) => .ok (l + l2, c + c2, evs ++ evs2) := by
  induction xs with
  | nil =>
      simp only [List.nil_append, pass2]
      cases pass2 path args depth ys with
      | error e => rfl
      | ok r =>
          obtain ⟨l2, c2, evs2⟩ := r
          simp
  | cons x rest ih =>
      cases x with
      | error u => simpa only [List.cons_append, pass2] using ih
      | ok n =>
          cases n with
          | file nm content => simpa only [List.cons_append, pass2] using ih
          | dir nm sub =>
              simp only [List.cons_append, pass2_cons_dir]
              by_cases hrec : args.recursive
              · rw [if_pos hrec, if_pos hrec]
                cases nm with
                | error u => rfl
                | ok name =>
                    simp only
                    by_cases hig : name ∈ args.ignored
                    · simp only [if_pos hig]
                      exact ih
                    · simp only [if_neg hig]
                      cases get_dir_lines (path ++ '/' :: name) args (depth + 1) sub with
                      | error e => rfl
                      | ok r =>
                          obtain ⟨l, c, evs⟩ := r
                          simp only [List.append_eq]
                          rw [ih]
                          cases pass2 path args depth rest with
                          | error e2 => rfl
                          | ok r2 =>
                              obtain ⟨l2, c2, evs2⟩ := r2
                              simp only
                              cases pass2 path args depth ys with
                              | error e3 => rfl
                              | ok r3 =>
                                  obtain ⟨l3, c3, evs3⟩ := r3
                                  simp [Nat.add_assoc]
              · rw [if_neg hrec, if_neg hrec]
                exact ih

theorem pass1_skip_ignored (args : Args) (depth : Nat) {n : Node}
    {name : RStr} (hn : n.name = .ok name) (hig : name ∈ args.ignored)
    (rest : List (Except Unit Node)) :
    ∀ lines chars : Nat,
      pass1 args depth lines chars (.ok n :: rest)
        = pass1 args depth lines chars rest := by
  intro lines chars
  simp [pass1, hn, hig]

theorem pass1_skip_dir (args : Args) (depth : Nat) (name : RStr)
    (sub : List (Except Unit Node)) (rest : List (Except Unit Node)) :
    ∀ lines chars : Nat,
      pass1 args depth lines chars (.ok (.dir (.ok name) sub) :: rest)
        = pass1 args depth lines chars rest := by
  intro lines chars
  by_cases hig : name ∈ args.ignored <;> simp [pass1, Node.name, hig]

theorem pass1_skip_err (args : Args) (depth : Nat) (u : Unit)
    (rest : List (Except Unit Node)) :
    ∀ lines chars : Nat,
      pass1 args depth lines chars (.error u :: rest)
        = pass1 args depth lines chars rest := by
  intro lines chars
  simp [pass1]

theorem pass2_skip_ignored (path : RStr) (args : Args) (depth : Nat)
    {n : Node} {name : RStr} (hn : n.name = .ok name)
    (hig : name ∈ args.ignored) (rest : List (Except Unit Node)) :
    pass2 path args depth (.ok n :: rest) = pass2 path args depth rest := by
  cases n with
  | file nm content => simp [pass2]
  | dir nm sub =>
      have : nm = .ok name := hn
      subst this
      rw [pass2_cons_dir]
      by_cases hrec : args.recursive
      · rw [if_pos hrec]
        simp [hig]
      · rw [if_neg hrec]

theorem pass2_skip_dir_nonrec (path : RStr) (args : Args) (depth : Nat)
    (hrec : args.recursive = false) (nm : Except Unit RStr)
    (sub : List (Except Unit Node)) (rest : List (Except Unit Node)) :
    pass2 path args depth (.ok (.dir nm sub) :: rest)
      = pass2 path args depth rest := by
  rw [pass2_cons_dir, if_neg (by simp [hrec])]

theorem pass2_skip_err (path : RStr) (args : Args) (depth : Nat) (u : Unit)
    (rest : List (Except Unit Node)) :
    pass2 path args depth (.error u :: rest) = pass2 path args depth rest := by
  simp [pass2]

theorem get_dir_lines_elim_mid (path : RStr) (args : Args) (depth : Nat)
    (pre post : List (Except Unit Node)) (x : Except Unit Node)
    (h1 : ∀ lines chars : Nat,
      pass1 args depth lines chars (x :: post)
        = pass1 args depth lines chars post)
    (h2 : pass2 path args depth (x :: post) = pass2 path args depth post) :
    get_dir_lines path args depth (pre ++ x :: post)
      = get_dir_lines path args depth (pre ++ post) := by
  unfold get_dir_lines
  rw [pass1_append, pass1_append, pass2_append, pass2_append, h2]
  cases pass1 args depth 0 0 pre with
  | error e => rfl
  | ok r =>
      obtain ⟨l, c, evs⟩ := r
      simp only
      rw [h1]

/-- C3: a directory entry whose decoded base name is a member of the ignore
set is skipped entirely: the walk's totals, printed output and
success-or-failure are exactly as if the entry were absent — so it is never
counted, its content is never opened (even if unreadable), and it is never
descended into, even when it is a directory and the recursive flag is set. -/
theorem claim_C3 (path : RStr) (args : Args) (depth : Nat)
    (pre post : List (Except Unit Node)) (n : Node) {name : RStr}
    (hn : n.name = .ok name) (hig : name ∈ args.ignored) :
    get_dir_lines path args depth (pre ++ .ok n :: post)
      = get_dir_lines path args depth (pre ++ post) :=
  get_dir_lines_elim_mid path args depth pre post (.ok n)
    (pass1_skip_ignored args depth hn hig post)
    (pass2_skip_ignored path args depth hn hig post)

/-- Witness for C3: an ignored, unreadable file (recursive flag set). -/
theorem claim_C3_witness :
    ((Node.file (.ok "b.txt".toList) (.error ())).name = .ok "b.txt".toList) ∧
    "b.txt".toList ∈ (⟨false, true, false, ["b.txt".toList]⟩ : Args).ignored ∧
    get_dir_lines "root".toList ⟨false, true, false, ["b.txt".toList]⟩ 0
        ([.ok (.file (.ok "a.txt".toList) (.ok "x\n".toList))]
          ++ .ok (.file (.ok "b.txt".toList) (.error ())) :: [])
      = get_dir_lines "root".toList ⟨false, true, false, ["b.txt".toList]⟩ 0
          ([.ok (.file (.ok "a.txt".toList) (.ok "x\n".toList))] ++ []) :=
  ⟨rfl, by decide, claim_C3 _ _ _ _ _ _ rfl (by decide)⟩

/-- C7: with the recursive flag unset, a subdirectory entry (with decodable
name) contributes exactly zero to the returned totals and is never descended
into or counted as a file: the walk is exactly as if the subdirectory were
absent, whatever its contents. -/
theorem claim_C7 (path : RStr) (args : Args) (hrec : args.recursive = false)
    (depth : Nat) (pre post sub : List (Except Unit Node)) (name : RStr) :
    get_dir_lines path args depth
        (pre ++ .ok (.dir (.ok name) sub) :: post)
      = get_dir_lines path args depth (pre ++ post) :=
  get_dir_lines_elim_mid path args depth pre post _
    (pass1_skip_dir args depth name sub post)
    (pass2_skip_dir_nonrec path args depth hrec _ sub post)

/-- Witness for C7: a non-empty subdirectory under a non-recursive walk. -/
theorem claim_C7_witness :
    ((⟨false, false, true, []⟩ : Args).recursive = false) ∧
    get_dir_lines "root".toList ⟨false, false, true, []⟩ 0
        ([.ok (.file (.ok "a.txt".toList) (.ok "x\ny\n".toList))]
          ++ .ok (.dir (.ok "sub".toList)
              [.ok (.file (.ok "c.txt".toList) (.ok "z\n".toList))]) :: [])
      = get_dir_lines "root".toList ⟨false, false, true, []⟩ 0
          ([.ok (.file (.ok "a.txt".toList) (.ok "x\ny\n".toList))] ++ []) :=
  ⟨rfl, claim_C7 _ _ rfl _ _ _ _ _⟩

/-- C4 counterexample: an I/O error yielded for an individual entry while
iterating a directory listing does not abort the run — both the walker and
the ignore-file scan flatten it away and return a successful result,
contradicting the claim that any I/O error at any point (including directory
listing) aborts the entire run. -/
theorem claim_C4_counterexample :
    get_dir_lines "root".toList ⟨false, false, false, []⟩ 0
        [.error (), .ok (.file (.ok "a.txt".toList) (.ok "x\n".toList))]
      = .ok (1, 0, [.header 0 "root".toList, .fileLine 0 "a.txt".toList 1]) ∧
    withIgnoredScan [] [.error ()] = .ok [] := by
  constructor
  · rw [get_dir_lines.eq_def]
    have h1 : pass1 ⟨false, false, false, []⟩ 0 0 0
        [.error (), .ok (.file (.ok "a.txt".toList) (.ok "x\n".toList))]
        = .ok (1, 0, [.fileLine 0 "a.txt".toList 1]) := rfl
    have h2 : pass2 "root".toList ⟨false, false, false, []⟩ 0
        [.error (), .ok (.file (.ok "a.txt".toList) (.ok "x\n".toList))]
        = .ok (0, 0, []) := by
      simp only [pass2.eq_def]
    rw [h1, h2]
    rfl
  · rfl

/-- C4 amended: errors do abort the run fail-fast — with the exception of
`Err` items yielded while iterating a directory listing, which `.flatten()`
silently drops (in both the walker and the ignore scan).  Concretely:
dropping a listing-iteration error never changes the result; an entry whose
name fails to decode aborts the walk with `FileNameError` once reached; a
non-ignored file whose content cannot be read aborts it with `LcIoError`. -/
theorem claim_C4_amended (path : RStr) (args : Args) (depth : Nat)
    (pre post : List (Except Unit Node)) (u : Unit) :
    (get_dir_lines path args depth (pre ++ .error u :: post)
        = get_dir_lines path args depth (pre ++ post)) ∧
    (∀ (ign : List RStr) (rest : List (Except Unit Node)),
      withIgnoredScan ign (.error u :: rest) = withIgnoredScan ign rest) ∧
    (∀ (n : Node) (l c : Nat) (evs : List OutEvent), n.name = .error u →
      pass1 args depth 0 0 pre = .ok (l, c, evs) →
      get_dir_lines path args depth (pre ++ .ok n :: post)
        = .error .FileNameError) ∧
    (∀ (name : RStr) (l c : Nat) (evs : List OutEvent),
      name ∉ args.ignored →
      pass1 args depth 0 0 pre = .ok (l, c, evs) →
      get_dir_lines path args depth
          (pre ++ .ok (.file (.ok name) (.error u)) :: post)
        = .error .LcIoError) := by
  refine ⟨?_, ?_, ?_, ?_⟩
  · exact get_dir_lines_elim_mid path args depth pre post (.error u)
      (pass1_skip_err args depth u post)
      (pass2_skip_err path args depth u post)
  · intro ign rest
    simp [withIgnoredScan]
  · intro n l c evs hn hpre
    rw [get_dir_lines.eq_def, pass1_append, hpre]
    simp [pass1, hn]
  · intro name l c evs hig hpre
    rw [get_dir_lines.eq_def, pass1_append, hpre]
    simp [pass1, Node.name, hig]

/-- Witness for C4 amended, at a listing with one `Err` item, one
undecodable name and one unreadable file. -/
theorem claim_C4_amended_witness :
    (get_dir_lines "r".toList ⟨false, true, false, []⟩ 0
        ([.ok (.file (.ok "a".toList) (.ok "x".toList))] ++ .error () :: [])
      = get_dir_lines "r".toList ⟨false, true, false, []⟩ 0
          ([.ok (.file (.ok "a".toList) (.ok "x".toList))] ++ [])) ∧
    (withIgnoredScan [] (.error () :: []) = withIgnoredScan [] []) ∧
    ((Node.file (.error ()) (.ok [])).name = .error () →
      pass1 ⟨false, true, false, []⟩ 0 0 0
          [.ok (.file (.ok "a".toList) (.ok "x".toList))]
        = .ok (1, 0, [.fileLine 0 "a".toList 1]) →
      get_dir_lines "r".toList ⟨false, true, false, []⟩ 0
          ([.ok (.file (.ok "a".toList) (.ok "x".toList))]
            ++ .ok (.file (.error ()) (.ok [])) :: [])
        = .error .FileNameError) ∧
    (("b".toList : RStr) ∉ (⟨false, true, false, []⟩ : Args).ignored →
      pass1 ⟨false, true, false, []⟩ 0 0 0
          [.ok (.file (.ok "a".toList) (.ok "x".toList))]
        = .ok (1, 0, [.fileLine 0 "a".toList 1]) →
      get_dir_lines "r".toList ⟨false, true, false, []⟩ 0
          ([.ok (.file (.ok "a".toList) (.ok "x".toList))]
            ++ .ok (.file (.ok "b".toList) (.error ())) :: [])
        = .error .LcIoError) := by
  have h := claim_C4_amended "r".toList ⟨false, true, false, []⟩ 0
    [.ok (.file (.ok "a".toList) (.ok "x".toList))] [] ()
  exact ⟨h.1, h.2.1 [] [], fun h1 h2 => h.2.2.1 _ 1 0 _ h1 h2,
    fun h1 h2 => h.2.2.2 "b".toList 1 0 _ h1 h2⟩

theorem treeTotals_cons_err (args : Args) (u : Unit)
    (rest : List (Except Unit Node)) :
    treeTotals args (.error u :: rest) = treeTotals args rest := by
  rw [treeTotals.eq_def]

theorem treeTotals_cons_ok (args : Args) (n : Node)
    (rest : List (Except Unit Node)) :
    treeTotals args (.ok n :: rest)
      = ((nodeTotals args n).1 + (treeTotals args rest).1,
         (nodeTotals args n).2 + (treeTotals args rest).2) := by
  rw [treeTotals.eq_def]

theorem nodeTotals_file (args : Args) (nm content : Except Unit RStr) :
    nodeTotals args (.file nm content)
      = match nm, content with
        | .ok name, .ok buffer =>
            if name ∈ args.ignored then (0, 0) else fileCounts args buffer
        | _, _ => (0, 0) := by
  rw [nodeTotals.eq_def]

theorem nodeTotals_dir (args : Args) (nm : Except Unit RStr)
    (sub : List (Except Unit Node)) :
    nodeTotals args (.dir nm sub)
      = match nm with
        | .ok name =>
            if name ∈ args.ignored then (0, 0) else treeTotals args sub
        | .error _ => (0, 0) := by
  rw [nodeTotals.eq_def]

theorem treeTotals_split (args : Args) (entries : List (Except Unit Node)) :
    treeTotals args entries
      = ((levelTotals args entries).1 + (subTotals args entries).1,
         (levelTotals args entries).2 + (subTotals args entries).2) := by
  induction entries with
  | nil =>
      rw [treeTotals.eq_def]
      simp [levelTotals, subTotals]
  | cons x rest ih =>
      cases x with
      | error u =>
          rw [treeTotals_cons_err, ih]
          simp [levelTotals, subTotals]
      | ok n =>
          rw [treeTotals_cons_ok, ih]
          cases n with
          | file nm content =>
              rw [nodeTotals_file]
              cases nm with
              | error u => simp [levelTotals, subTotals]
              | ok name =>
                  cases content with
                  | error u => simp [levelTotals, subTotals]
                  | ok buffer =>
                      by_cases hig : name ∈ args.ignored <;>
                        simp [levelTotals, subTotals, hig] <;> omega
          | dir nm sub =>
              rw [nodeTotals_dir]
              cases nm with
              | error u => simp [levelTotals, subTotals]
              | ok name =>
                  by_cases hig : name ∈ args.ignored <;>
                    simp [levelTotals, subTotals, hig] <;> omega

theorem pass1_totals (args : Args) (depth : Nat)
    (entries : List (Except Unit Node)) :
    ∀ lines chars resL resC evs,
      pass1 args depth lines chars entries = .ok (resL, resC, evs) →
      resL = lines + (levelTotals args entries).1
        ∧ resC = chars + (levelTotals args entries).2 := by
  induction entries with
  | nil =>
      intro lines chars resL resC evs h
      simp [pass1] at h
      simp [levelTotals, h.1, h.2.1]
  | cons x rest ih =>
      intro lines chars resL resC evs h
      cases x with
      | error u =>
          rw [pass1] at h
          have := ih lines chars resL resC evs h
          simpa [levelTotals] using this
      | ok n =>
          cases hn : n.name with
          | error u => simp [pass1, hn] at h
          | ok name =>
              by_cases hig : name ∈ args.ignored
              · rw [pass1_skip_ignored args depth hn hig rest] at h
                have := ih lines chars resL resC evs h
                cases n with
                | file nm content =>
                    have hnm : nm = .ok name := hn
                    subst hnm
                    cases content with
                    | error u => simpa [levelTotals] using this
                    | ok buffer => simpa [levelTotals, hig] using this
                | dir nm sub => simpa [levelTotals] using this
              · cases n with
                | dir nm sub =>
                    rw [pass1] at h
                    simp only [hn, if_neg hig] at h
                    have := ih lines chars resL resC evs h
                    simpa [levelTotals] using this
                | file nm content =>
                    have hnm : nm = .ok name := hn
                    subst hnm
                    cases content with
                    | error u => simp [pass1, Node.name, hig] at h
                    | ok buffer =>
                        rw [pass1] at h
                        simp only [Node.name, if_neg hig] at h
                        cases hrec : pass1 args depth
                            (lines + (fileCounts args buffer).1)
                            (chars + (fileCounts args buffer).2) rest with
                        | error e => rw [hrec] at h; simp at h
                        | ok r =>
                            obtain ⟨L, C, evs2⟩ := r
                            rw [hrec] at h
                            simp only [Except.ok.injEq, Prod.mk.injEq] at h
                            obtain ⟨hL, hC, _⟩ := h
                            have hih := ih _ _ _ _ _ hrec
                            simp [levelTotals, hig]
                            omega

theorem pass2_nonrec (path : RStr) (args : Args)
    (hrec : args.recursive = false) (depth : Nat) :
    ∀ entries : List (Except Unit Node),
      pass2 path args depth entries = .ok (0, 0, []) := by
  intro entries
  induction entries with
  | nil => simp [pass2]
  | cons x rest ih =>
      cases x with
      | error u => rw [pass2_skip_err]; exact ih
      | ok n =>
          cases n with
          | file nm content => simpa only [pass2] using ih
          | dir nm sub =>
              rw [pass2_skip_dir_nonrec path args depth hrec]
              exact ih

theorem walk_totals (args : Args) (hrec : args.recursive = true) :
    ∀ N : Nat, ∀ entries : List (Except Unit Node), sizeOf entries ≤ N →
      (∀ path depth l c evs,
          get_dir_lines path args depth entries = .ok (l, c, evs) →
          l = (treeTotals args entries).1 ∧ c = (treeTotals args entries).2) ∧
      (∀ path depth l c evs,
          pass2 path args depth entries = .ok (l, c, evs) →
          l = (subTotals args entries).1 ∧ c = (subTotals args entries).2) := by
  intro N
  induction N with
  | zero =>
      intro entries hsz
      exfalso
      cases entries <;> simp at hsz
  | succ N ih =>
      intro entries hsz
      have hpass2 : ∀ path depth l c evs,
          pass2 path args depth entries = .ok (l, c, evs) →
          l = (subTotals args entries).1 ∧ c = (subTotals args entries).2 := by
        intro path depth l c evs h
        cases entries with
        | nil =>
            simp [pass2] at h
            simp [subTotals]
            omega
        | cons x rest =>
            have hrest : sizeOf rest ≤ N := by
              cases x <;> simp at hsz <;> omega
            cases x with
            | error u =>
                rw [pass2_skip_err] at h
                have := (ih rest hrest).2 path depth l c evs h
                simpa [subTotals] using this
            | ok n =>
                cases n with
                | file nm content =>
                    simp only [pass2] at h
                    have := (ih rest hrest).2 path depth l c evs h
                    simpa [subTotals] using this
                | dir nm sub =>
                    rw [pass2_cons_dir, if_pos hrec] at h
                    cases nm with
                    | error u => simp at h
                    | ok name =>
                        simp only at h
                        by_cases hig : name ∈ args.ignored
                        · rw [if_pos hig] at h
                          have := (ih rest hrest).2 path depth l c evs h
                          simp [subTotals, hig]
                          omega
                        · rw [if_neg hig] at h
                          have hsub : sizeOf sub ≤ N := by
                            simp at hsz
                            omega
                          cases hg : get_dir_lines (path ++ '/' :: name)
                              args (depth + 1) sub with
                          | error e => rw [hg] at h; simp at h
                          | ok r =>
                              obtain ⟨l1, c1, evs1⟩ := r
                              rw [hg] at h
                              cases hp : pass2 path args depth rest with
                              | error e2 => rw [hp] at h; simp at h
                              | ok r2 =>
                                  obtain ⟨l2, c2, evs2⟩ := r2
                                  rw [hp] at h
                                  simp only [Except.ok.injEq,
                                    Prod.mk.injEq] at h
                                  obtain ⟨hl, hc, _⟩ := h
                                  have h1 := (ih sub hsub).1 _ _ _ _ _ hg
                                  have h2 := (ih rest hrest).2 _ _ _ _ _ hp
                                  simp [subTotals, hig]
                                  omega
      refine ⟨?_, hpass2⟩
      intro path depth l c evs h
      rw [get_dir_lines.eq_def] at h
      cases h1 : pass1 args depth 0 0 entries with
      | error e => rw [h1] at h; simp at h
      | ok r =>
          obtain ⟨lines, chars, evs1⟩ := r
          rw [h1] at h
          cases h2 : pass2 path args depth entries with
          | error e => rw [h2] at h; simp at h
          | ok r2 =>
              obtain ⟨l2, c2, evs2⟩ := r2
              rw [h2] at h
              simp only [Except.ok.injEq, Prod.mk.injEq] at h
              obtain ⟨hl, hc, _⟩ := h
              have hfst := pass1_totals args depth entries 0 0 lines chars evs1 h1
              have hsnd := hpass2 path depth l2 c2 evs2 h2
              rw [treeTotals_split]
              simp only
              omega

theorem fileCounts_rec_irrel (args : Args) (b : Bool) (s : RStr) :
    fileCounts { args with recursive := b } s = fileCounts args s := rfl

theorem levelTotals_rec_irrel (args : Args) (b : Bool)
    (entries : List (Except Unit Node)) :
    levelTotals { args with recursive := b } entries
      = levelTotals args entries := by
  induction entries with
  | nil => rfl
  | cons x rest ih =>
      cases x with
      | error u => simpa [levelTotals] using ih
      | ok n =>
          cases n with
          | dir nm sub => simpa [levelTotals] using ih
          | file nm content =>
              cases nm with
              | error u => simpa [levelTotals] using ih
              | ok name =>
                  cases content with
                  | error u => simpa [levelTotals] using ih
                  | ok buffer =>
                      by_cases hig : name ∈ args.ignored <;>
                        simp [levelTotals, hig, ih, fileCounts_rec_irrel]

/-- C2: in recursive mode a successful walk's aggregate totals equal the
sum, over every non-ignored reachable file in the tree, of that file's
individual `(lines, characters)` counts (`treeTotals`); these tree totals
decompose into the level's own file totals plus the subdirectory totals,
and a successful non-recursive walk of the same listing returns exactly the
level's file totals — so the recursive total is the sum of the
per-level non-recursive totals. -/
theorem claim_C2 (path : RStr) (args : Args) (hrec : args.recursive = true)
    (depth : Nat) (entries : List (Except Unit Node)) (l c : Nat)
    (evs : List OutEvent)
    (h : get_dir_lines path args depth entries = .ok (l, c, evs)) :
    (l, c) = treeTotals args entries ∧
    treeTotals args entries
      = ((levelTotals args entries).1 + (subTotals args entries).1,
         (levelTotals args entries).2 + (subTotals args entries).2) ∧
    (∀ path2 depth2 l2 c2 evs2,
        get_dir_lines path2 { args with recursive := false } depth2 entries
          = .ok (l2, c2, evs2) →
        (l2, c2) = levelTotals args entries) := by
  refine ⟨?_, treeTotals_split args entries, ?_⟩
  · have hw := (walk_totals args hrec (sizeOf entries) entries le_rfl).1
      path depth l c evs h
    rw [Prod.ext_iff]
    exact ⟨hw.1, hw.2⟩
  · intro path2 depth2 l2 c2 evs2 h2
    rw [get_dir_lines.eq_def] at h2
    rw [pass2_nonrec path2 { args with recursive := false } rfl depth2] at h2
    cases hp : pass1 { args with recursive := false } depth2 0 0 entries with
    | error e => rw [hp] at h2; simp at h2
    | ok r =>
        obtain ⟨L, C, evs1⟩ := r
        rw [hp] at h2
        simp only [Except.ok.injEq, Prod.mk.injEq] at h2
        obtain ⟨hL, hC, _⟩ := h2
        have hlev := pass1_totals { args with recursive := false }
          depth2 entries 0 0 L C evs1 hp
        rw [levelTotals_rec_irrel] at hlev
        rw [Prod.ext_iff]
        simp only
        omega

/-- Witness for C2 on a two-level tree: `a` (2 lines) at the root and `c`
(1 unterminated line) in subdirectory `d`. -/
theorem claim_C2_witness :
    ((⟨false, true, false, []⟩ : Args).recursive = true) ∧
    get_dir_lines "r".toList ⟨false, true, false, []⟩ 0
        [.ok (.file (.ok "a".toList) (.ok "x\ny\n".toList)),
         .ok (.dir (.ok "d".toList)
            [.ok (.file (.ok "c".toList) (.ok "z".toList))])]
      = .ok (3, 0, [.header 0 "r".toList, .fileLine 0 "a".toList 2,
          .header 1 ("r".toList ++ '/' :: "d".toList),
          .fileLine 1 "c".toList 1]) ∧
    ((3, 0)
      = treeTotals ⟨false, true, false, []⟩
          [.ok (.file (.ok "a".toList) (.ok "x\ny\n".toList)),
           .ok (.dir (.ok "d".toList)
              [.ok (.file (.ok "c".toList) (.ok "z".toList))])] ∧
     treeTotals ⟨false, true, false, []⟩
          [.ok (.file (.ok "a".toList) (.ok "x\ny\n".toList)),
           .ok (.dir (.ok "d".toList)
              [.ok (.file (.ok "c".toList) (.ok "z".toList))])]
       = ((levelTotals ⟨false, true, false, []⟩
              [.ok (.file (.ok "a".toList) (.ok "x\ny\n".toList)),
               .ok (.dir (.ok "d".toList)
                  [.ok (.file (.ok "c".toList) (.ok "z".toList))])]).1
            + (subTotals ⟨false, true, false, []⟩
              [.ok (.file (.ok "a".toList) (.ok "x\ny\n".toList)),
               .ok (.dir (.ok "d".toList)
                  [.ok (.file (.ok "c".toList) (.ok "z".toList))])]).1,
          (levelTotals ⟨false, true, false, []⟩
              [.ok (.file (.ok "a".toList) (.ok "x\ny\n".toList)),
               .ok (.dir (.ok "d".toList)
                  [.ok (.file (.ok "c".toList) (.ok "z".toList))])]).2
            + (subTotals ⟨false, true, false, []⟩
              [.ok (.file (.ok "a".toList) (.ok "x\ny\n".toList)),
               .ok (.dir (.ok "d".toList)
                  [.ok (.file (.ok "c".toList) (.ok "z".toList))])]).2) ∧
     (∀ path2 depth2 l2 c2 evs2,
        get_dir_lines path2
            { (⟨false, true, false, []⟩ : Args) with recursive := false }
            depth2
            [.ok (.file (.ok "a".toList) (.ok "x\ny\n".toList)),
             .ok (.dir (.ok "d".toList)
                [.ok (.file (.ok "c".toList) (.ok "z".toList))])]
          = .ok (l2, c2, evs2) →
        (l2, c2) = levelTotals ⟨false, true, false, []⟩
            [.ok (.file (.ok "a".toList) (.ok "x\ny\n".toList)),
             .ok (.dir (.ok "d".toList)
                [.ok (.file (.ok "c".toList) (.ok "z".toList))])])) := by
  have hsub : get_dir_lines ("r".toList ++ '/' :: "d".toList)
      ⟨false, true, false, []⟩ 1
      [.ok (.file (.ok "c".toList) (.ok "z".toList))]
      = .ok (1, 0, [.header 1 ("r".toList ++ '/' :: "d".toList),
          .fileLine 1 "c".toList 1]) := by
    rw [get_dir_lines.eq_def]
    have p1 : pass1 ⟨false, true, false, []⟩ 1 0 0
        [.ok (.file (.ok "c".toList) (.ok "z".toList))]
        = .ok (1, 0, [.fileLine 1 "c".toList 1]) := rfl
    have p2 : pass2 ("r".toList ++ '/' :: "d".toList)
        ⟨false, true, false, []⟩ 1
        [.ok (.file (.ok "c".toList) (.ok "z".toList))]
        = .ok (0, 0, []) := by
      simp only [pass2.eq_def]
    rw [p1, p2]
    rfl
  have h : get_dir_lines "r".toList ⟨false, true, false, []⟩ 0
      [.ok (.file (.ok "a".toList) (.ok "x\ny\n".toList)),
       .ok (.dir (.ok "d".toList)
          [.ok (.file (.ok "c".toList) (.ok "z".toList))])]
      = .ok (3, 0, [.header 0 "r".toList, .fileLine 0 "a".toList 2,
          .header 1 ("r".toList ++ '/' :: "d".toList),
          .fileLine 1 "c".toList 1]) := by
    rw [get_dir_lines.eq_def]
    have p1 : pass1 ⟨false, true, false, []⟩ 0 0 0
        [.ok (.file (.ok "a".toList) (.ok "x\ny\n".toList)),
         .ok (.dir (.ok "d".toList)
            [.ok (.file (.ok "c".toList) (.ok "z".toList))])]
        = .ok (2, 0, [.fileLine 0 "a".toList 2]) := rfl
    have p2 : pass2 "r".toList ⟨false, true, false, []⟩ 0
        [.ok (.file (.ok "a".toList) (.ok "x\ny\n".toList)),
         .ok (.dir (.ok "d".toList)
            [.ok (.file (.ok "c".toList) (.ok "z".toList))])]
        = .ok (1, 0, [.header 1 ("r".toList ++ '/' :: "d".toList),
            .fileLine 1 "c".toList 1]) := by
      have hsub2 : get_dir_lines (['r', '/', 'd'] : RStr)
          ⟨false, true, false, []⟩ 1
          [.ok (.file (.ok ['c']) (.ok ['z']))]
          = .ok (1, 0, [.header 1 ['r', '/', 'd'], .fileLine 1 ['c'] 1]) :=
        hsub
      simp [pass2.eq_def, hsub2]
    rw [p1, p2]
    rfl
  exact ⟨rfl, h, claim_C2 "r".toList ⟨false, true, false, []⟩ rfl 0 _ 3 0 _ h⟩

theorem NiceBlocks_append {a b : List OutEvent} (ha : NiceBlocks a)
    (hb : NiceBlocks b) : NiceBlocks (a ++ b) := by
  induction ha with
  | nil => simpa using hb
  | header d p h ih => exact NiceBlocks.header d p ih
  | fileNe d n l hne h ih => exact NiceBlocks.fileNe d n l hne ih
  | file69 d n h ih => exact NiceBlocks.file69 d n ih

theorem NiceBlocks_sound {a : List OutEvent} (ha : NiceBlocks a) :
    niceWellPlaced a = true := by
  induction ha with
  | nil => rfl
  | header d p h ih => simpa [niceWellPlaced] using ih
  | file69 d n h ih => simpa [niceWellPlaced] using ih
  | fileNe d n l hne h ih =>
      rename_i rest
      cases rest with
      | nil => simp [niceWellPlaced, hne]
      | cons e t =>
          cases e with
          | header d2 p2 => simpa [niceWellPlaced, hne] using ih
          | fileLine d2 n2 l2 => simpa [niceWellPlaced, hne] using ih
          | nice => cases h

theorem pass1_nice (args : Args) (depth : Nat)
    (entries : List (Except Unit Node)) :
    ∀ lines chars resL resC evs,
      pass1 args depth lines chars entries = .ok (resL, resC, evs) →
      NiceBlocks evs := by
  induction entries with
  | nil =>
      intro lines chars resL resC evs h
      simp [pass1] at h
      obtain ⟨-, -, h3⟩ := h
      rw [h3]
      exact NiceBlocks.nil
  | cons x rest ih =>
      intro lines chars resL resC evs h
      cases x with
      | error u =>
          rw [pass1] at h
          exact ih lines chars resL resC evs h
      | ok n =>
          cases hn : n.name with
          | error u => simp [pass1, hn] at h
          | ok name =>
              by_cases hig : name ∈ args.ignored
              · rw [pass1_skip_ignored args depth hn hig rest] at h
                exact ih lines chars resL resC evs h
              · cases n with
                | dir nm sub =>
                    rw [pass1] at h
                    simp only [hn, if_neg hig] at h
                    exact ih lines chars resL resC evs h
                | file nm content =>
                    have hnm : nm = .ok name := hn
                    subst hnm
                    cases content with
                    | error u => simp [pass1, Node.name, hig] at h
                    | ok buffer =>
                        rw [pass1] at h
                        simp only [Node.name, if_neg hig] at h
                        cases hrec : pass1 args depth
                            (lines + (fileCounts args buffer).1)
                            (chars + (fileCounts args buffer).2) rest with
                        | error e => rw [hrec] at h; simp at h
                        | ok r =>
                            obtain ⟨L, C, evs2⟩ := r
                            rw [hrec] at h
                            simp only [Except.ok.injEq, Prod.mk.injEq] at h
                            obtain ⟨-, -, h3⟩ := h
                            rw [← h3]
                            have hblocks := ih _ _ _ _ _ hrec
                            by_cases h69 : lines + (fileCounts args buffer).1 = 69
                            · rw [if_pos h69, h69]
                              exact NiceBlocks.file69 depth name hblocks
                            · rw [if_neg h69]
                              exact NiceBlocks.fileNe depth name _ h69 hblocks

theorem walk_nice (args : Args) :
    ∀ N : Nat, ∀ entries : List (Except Unit Node), sizeOf entries ≤ N →
      (∀ path depth l c evs,
          get_dir_lines path args depth entries = .ok (l, c, evs) →
          NiceBlocks evs) ∧
      (∀ path depth l c evs,
          pass2 path args depth entries = .ok (l, c, evs) →
          NiceBlocks evs) := by
  intro N
  induction N with
  | zero =>
      intro entries hsz
      exfalso
      cases entries <;> simp at hsz
  | succ N ih =>
      intro entries hsz
      have hpass2 : ∀ path depth l c evs,
          pass2 path args depth entries = .ok (l, c, evs) →
          NiceBlocks evs := by
        intro path depth l c evs h
        cases entries with
        | nil =>
            simp [pass2] at h
            rw [h.2.2]
            exact NiceBlocks.nil
        | cons x rest =>
            have hrest : sizeOf rest ≤ N := by
              cases x <;> simp at hsz <;> omega
            cases x with
            | error u =>
                rw [pass2_skip_err] at h
                exact (ih rest hrest).2 path depth l c evs h
            | ok n =>
                cases n with
                | file nm content =>
                    simp only [pass2] at h
                    exact (ih rest hrest).2 path depth l c evs h
                | dir nm sub =>
                    by_cases hrec : args.recursive
                    · rw [pass2_cons_dir, if_pos hrec] at h
                      cases nm with
                      | error u => simp at h
                      | ok name =>
                          simp only at h
                          by_cases hig : name ∈ args.ignored
                          · rw [if_pos hig] at h
                            exact (ih rest hrest).2 path depth l c evs h
                          · rw [if_neg hig] at h
                            have hsub : sizeOf sub ≤ N := by
                              simp at hsz
                              omega
                            cases hg : get_dir_lines (path ++ '/' :: name)
                                args (depth + 1) sub with
                            | error e => rw [hg] at h; simp at h
                            | ok r =>
                                obtain ⟨l1, c1, evs1⟩ := r
                                rw [hg] at h
                                cases hp : pass2 path args depth rest with
                                | error e2 => rw [hp] at h; simp at h
                                | ok r2 =>
                                    obtain ⟨l2, c2, evs2⟩ := r2
                                    rw [hp] at h
                                    simp only [Except.ok.injEq,
                                      Prod.mk.injEq] at h
                                    obtain ⟨-, -, h3⟩ := h
                                    rw [← h3]
                                    exact NiceBlocks_append
                                      ((ih sub hsub).1 _ _ _ _ _ hg)
                                      ((ih rest hrest).2 _ _ _ _ _ hp)
                    · rw [pass2_skip_dir_nonrec path args depth
                          (by simpa using hrec)] at h
                      exact (ih rest hrest).2 path depth l c evs h
      refine ⟨?_, hpass2⟩
      intro path depth l c evs h
      rw [get_dir_lines.eq_def] at h
      cases h1 : pass1 args depth 0 0 entries with
      | error e => rw [h1] at h; simp at h
      | ok r =>
          obtain ⟨lines, chars, evs1⟩ := r
          rw [h1] at h
          cases h2 : pass2 path args depth entries with
          | error e => rw [h2] at h; simp at h
          | ok r2 =>
              obtain ⟨l2, c2, evs2⟩ := r2
              rw [h2] at h
              simp only [Except.ok.injEq, Prod.mk.injEq] at h
              obtain ⟨-, -, h3⟩ := h
              rw [← h3]
              exact NiceBlocks.header depth path
                (NiceBlocks_append (pass1_nice args depth entries _ _ _ _ _ h1)
                  (hpass2 path depth l2 c2 evs2 h2))

/-- C8: in the output of any successful directory walk, a `NICE!` line
appears immediately after a file's summary line exactly when that summary's
per-directory running line total equals 69, and nowhere else (in particular
a summary at any other total, such as 70, is not followed by one). -/
theorem claim_C8 (path : RStr) (args : Args) (depth : Nat)
    (entries : List (Except Unit Node)) (l c : Nat) (evs : List OutEvent)
    (h : get_dir_lines path args depth entries = .ok (l, c, evs)) :
    niceWellPlaced evs = true :=
  NiceBlocks_sound
    ((walk_nice args (sizeOf entries) entries le_rfl).1 path depth l c evs h)

/-- Witness for C8: a 69-line file, then an empty file (running total stays
69 and `NICE!` prints again), then a one-line file reaching 70 (no
`NICE!`). -/
theorem claim_C8_witness :
    get_dir_lines "r".toList ⟨false, false, false, []⟩ 0
        [.ok (.file (.ok "f1".toList) (.ok (List.replicate 69 '\n'))),
         .ok (.file (.ok "f2".toList) (.ok [])),
         .ok (.file (.ok "f3".toList) (.ok "one\n".toList))]
      = .ok (70, 0, [.header 0 "r".toList, .fileLine 0 "f1".toList 69,
          .nice, .fileLine 0 "f2".toList 69, .nice,
          .fileLine 0 "f3".toList 70]) ∧
    niceWellPlaced [.header 0 "r".toList, .fileLine 0 "f1".toList 69,
        .nice, .fileLine 0 "f2".toList 69, .nice,
        .fileLine 0 "f3".toList 70] = true := by
  have h : get_dir_lines "r".toList ⟨false, false, false, []⟩ 0
      [.ok (.file (.ok "f1".toList) (.ok (List.replicate 69 '\n'))),
       .ok (.file (.ok "f2".toList) (.ok [])),
       .ok (.file (.ok "f3".toList) (.ok "one\n".toList))]
      = .ok (70, 0, [.header 0 "r".toList, .fileLine 0 "f1".toList 69,
          .nice, .fileLine 0 "f2".toList 69, .nice,
          .fileLine 0 "f3".toList 70]) := by
    rw [get_dir_lines.eq_def]
    have p1 : pass1 ⟨false, false, false, []⟩ 0 0 0
        [.ok (.file (.ok "f1".toList) (.ok (List.replicate 69 '\n'))),
         .ok (.file (.ok "f2".toList) (.ok [])),
         .ok (.file (.ok "f3".toList) (.ok "one\n".toList))]
        = .ok (70, 0, [.fileLine 0 "f1".toList 69, .nice,
            .fileLine 0 "f2".toList 69, .nice,
            .fileLine 0 "f3".toList 70]) := rfl
    have p2 : pass2 "r".toList ⟨false, false, false, []⟩ 0
        [.ok (.file (.ok "f1".toList) (.ok (List.replicate 69 '\n'))),
         .ok (.file (.ok "f2".toList) (.ok [])),
         .ok (.file (.ok "f3".toList) (.ok "one\n".toList))]
        = .ok (0, 0, []) := by
      simp only [pass2.eq_def]
    rw [p1, p2]
    rfl
  exact ⟨h, claim_C8 "r".toList ⟨false, false, false, []⟩ 0 _ 70 0 _ h⟩

theorem fileCounts_cc (args : Args) (b : Bool) (s : RStr) :
    (fileCounts { args with count_chars := b } s).1
      = (fileCounts args s).1 := by
  rw [fileCounts_eq, fileCounts_eq]
  rfl

theorem fileCounts_chars_off (args : Args) (hcc : args.count_chars = false)
    (s : RStr) : (fileCounts args s).2 = 0 := by
  rw [fileCounts_eq]
  simp [hcc]

theorem levelTotals_chars_off (args : Args) (hcc : args.count_chars = false) :
    ∀ entries : List (Except Unit Node), (levelTotals args entries).2 = 0 := by
  intro entries
  induction entries with
  | nil => rfl
  | cons x rest ih =>
      cases x with
      | error u => simpa [levelTotals] using ih
      | ok n =>
          cases n with
          | dir nm sub => simpa [levelTotals] using ih
          | file nm content =>
              cases nm with
              | error u => simpa [levelTotals] using ih
              | ok name =>
                  cases content with
                  | error u => simpa [levelTotals] using ih
                  | ok buffer =>
                      by_cases hig : name ∈ args.ignored <;>
                        simp [levelTotals, hig, ih,
                          fileCounts_chars_off args hcc]

theorem pass1_cc (args : Args) (b : Bool) (depth : Nat)
    (entries : List (Except Unit Node)) :
    ∀ lines chars chars2 : Nat,
      dropChars (pass1 { args with count_chars := b } depth
          lines chars entries)
        = dropChars (pass1 args depth lines chars2 entries) := by
  induction entries with
  | nil =>
      intro lines chars chars2
      simp [pass1, dropChars]
  | cons x rest ih =>
      intro lines chars chars2
      cases x with
      | error u =>
          simp only [pass1]
          exact ih lines chars chars2
      | ok n =>
          cases hn : n.name with
          | error u => simp [pass1, hn, dropChars]
          | ok name =>
              by_cases hig : name ∈ args.ignored
              · rw [pass1_skip_ignored { args with count_chars := b }
                    depth hn hig rest,
                  pass1_skip_ignored args depth hn hig rest]
                exact ih lines chars chars2
              · cases n with
                | dir nm sub =>
                    simp only [pass1, hn, if_neg hig]
                    exact ih lines chars chars2
                | file nm content =>
                    have hnm : nm = .ok name := hn
                    subst hnm
                    cases content with
                    | error u => simp [pass1, Node.name, hig, dropChars]
                    | ok buffer =>
                        simp only [pass1, Node.name, if_neg hig]
                        rw [fileCounts_cc args b buffer]
                        have ihx := ih (lines + (fileCounts args buffer).1)
                          (chars + (fileCounts { args with count_chars := b }
                              buffer).2)
                          (chars2 + (fileCounts args buffer).2)
                        cases hA : pass1 { args with count_chars := b } depth
                            (lines + (fileCounts args buffer).1)
                            (chars + (fileCounts { args with count_chars := b }
                                buffer).2) rest with
                        | error e =>
                            rw [hA] at ihx
                            cases hB : pass1 args depth
                                (lines + (fileCounts args buffer).1)
                                (chars2 + (fileCounts args buffer).2) rest with
                            | error e2 =>
                                rw [hB] at ihx
                                simp [dropChars] at ihx
                                simp [dropChars, ihx]
                            | ok r =>
                                rw [hB] at ihx
                                obtain ⟨L, C, evs⟩ := r
                                simp [dropChars] at ihx
                        | ok r =>
                            obtain ⟨L, C, evs⟩ := r
                            rw [hA] at ihx
                            cases hB : pass1 args depth
                                (lines + (fileCounts args buffer).1)
                                (chars2 + (fileCounts args buffer).2) rest with
                            | error e2 =>
                                rw [hB] at ihx
                                simp [dropChars] at ihx
                            | ok r2 =>
                                obtain ⟨L2, C2, evs2⟩ := r2
                                rw [hB] at ihx
                                simp only [dropChars, Except.ok.injEq,
                                  Prod.mk.injEq] at ihx
                                simp [dropChars, ihx.1, ihx.2]

theorem walk_cc (args : Args) (b : Bool) :
    ∀ N : Nat, ∀ entries : List (Except Unit Node), sizeOf entries ≤ N →
      (∀ path depth,
        dropChars (get_dir_lines path { args with count_chars := b }
            depth entries)
          = dropChars (get_dir_lines path args depth entries)) ∧
      (∀ path depth,
        dropChars (pass2 path { args with count_chars := b } depth entries)
          = dropChars (pass2 path args depth entries)) := by
  intro N
  induction N with
  | zero =>
      intro entries hsz
      exfalso
      cases entries <;> simp at hsz
  | succ N ih =>
      intro entries hsz
      have hpass2 : ∀ path depth,
          dropChars (pass2 path { args with count_chars := b } depth entries)
            = dropChars (pass2 path args depth entries) := by
        intro path depth
        cases entries with
        | nil => simp [pass2, dropChars]
        | cons x rest =>
            have hrest : sizeOf rest ≤ N := by
              cases x <;> simp at hsz <;> omega
            cases x with
            | error u =>
                rw [pass2_skip_err, pass2_skip_err]
                exact (ih rest hrest).2 path depth
            | ok n =>
                cases n with
                | file nm content =>
                    simp only [pass2]
                    exact (ih rest hrest).2 path depth
                | dir nm sub =>
                    rw [pass2_cons_dir, pass2_cons_dir]
                    by_cases hrec : args.recursive
                    · rw [if_pos hrec, if_pos hrec]
                      cases nm with
                      | error u => rfl
                      | ok name =>
                          simp only
                          by_cases hig : name ∈ args.ignored
                          · rw [if_pos hig, if_pos hig]
                            exact (ih rest hrest).2 path depth
                          · rw [if_neg hig, if_neg hig]
                            have hsub : sizeOf sub ≤ N := by
                              simp at hsz
                              omega
                            have hw := (ih sub hsub).1
                              (path ++ '/' :: name) (depth + 1)
                            have hp := (ih rest hrest).2 path depth
                            cases hA : get_dir_lines (path ++ '/' :: name)
                                { args with count_chars := b }
                                (depth + 1) sub with
                            | error e =>
                                rw [hA] at hw
                                cases hB : get_dir_lines
                                    (path ++ '/' :: name) args
                                    (depth + 1) sub with
                                | error e2 =>
                                    rw [hB] at hw
                                    simp [dropChars] at hw
                                    simp [dropChars, hw]
                                | ok r =>
                                    rw [hB] at hw
                                    obtain ⟨l1, c1, evs1⟩ := r
                                    simp [dropChars] at hw
                            | ok r =>
                                obtain ⟨l1, c1, evs1⟩ := r
                                rw [hA] at hw
                                cases hB : get_dir_lines
                                    (path ++ '/' :: name) args
                                    (depth + 1) sub with
                                | error e2 =>
                                    rw [hB] at hw
                                    simp [dropChars] at hw
                                | ok r2 =>
                                    obtain ⟨l2, c2, evs2⟩ := r2
                                    rw [hB] at hw
                                    simp only [dropChars, Except.ok.injEq,
                                      Prod.mk.injEq] at hw
                                    cases hC : pass2 path
                                        { args with count_chars := b }
                                        depth rest with
                                    | error e3 =>
                                        rw [hC] at hp
                                        cases hD : pass2 path args depth rest with
                                        | error e4 =>
                                            rw [hD] at hp
                                            simp [dropChars] at hp
                                            simp [dropChars, hp]
                                        | ok r3 =>
                                            rw [hD] at hp
                                            obtain ⟨l3, c3, evs3⟩ := r3
                                            simp [dropChars] at hp
                                    | ok r3 =>
                                        obtain ⟨l3, c3, evs3⟩ := r3
                                        rw [hC] at hp
                                        cases hD : pass2 path args depth rest with
                                        | error e4 =>
                                            rw [hD] at hp
                                            simp [dropChars] at hp
                                        | ok r4 =>
                                            obtain ⟨l4, c4, evs4⟩ := r4
                                            rw [hD] at hp
                                            simp only [dropChars,
                                              Except.ok.injEq,
                                              Prod.mk.injEq] at hp
                                            simp [dropChars, hw.1, hw.2,
                                              hp.1, hp.2]
                    · rw [if_neg hrec, if_neg hrec]
                      exact (ih rest hrest).2 path depth
      refine ⟨?_, hpass2⟩
      intro path depth
      rw [get_dir_lines.eq_def, get_dir_lines.eq_def]
      have h1 := pass1_cc args b depth entries 0 0 0
      have h2 := hpass2 path depth
      cases hA : pass1 { args with count_chars := b } depth 0 0 entries with
      | error e =>
          rw [hA] at h1
          cases hB : pass1 args depth 0 0 entries with
          | error e2 =>
              rw [hB] at h1
              simp [dropChars] at h1
              simp [dropChars, h1]
          | ok r =>
              rw [hB] at h1
              obtain ⟨L, C, evs⟩ := r
              simp [dropChars] at h1
      | ok r =>
          obtain ⟨lines, chars, evs1⟩ := r
          rw [hA] at h1
          cases hB : pass1 args depth 0 0 entries with
          | error e2 =>
              rw [hB] at h1
              simp [dropChars] at h1
          | ok r2 =>
              obtain ⟨lines2, chars2, evs2⟩ := r2
              rw [hB] at h1
              simp only [dropChars, Except.ok.injEq, Prod.mk.injEq] at h1
              cases hC : pass2 path { args with count_chars := b }
                  depth entries with
              | error e3 =>
                  rw [hC] at h2
                  cases hD : pass2 path args depth entries with
                  | error e4 =>
                      rw [hD] at h2
                      simp [dropChars] at h2
                      simp [dropChars, h2]
                  | ok r3 =>
                      rw [hD] at h2
                      obtain ⟨l3, c3, evs3⟩ := r3
                      simp [dropChars] at h2
              | ok r3 =>
                  obtain ⟨l3, c3, evs3⟩ := r3
                  rw [hC] at h2
                  cases hD : pass2 path args depth entries with
                  | error e4 =>
                      rw [hD] at h2
                      simp [dropChars] at h2
                  | ok r4 =>
                      obtain ⟨l4, c4, evs4⟩ := r4
                      rw [hD] at h2
                      simp only [dropChars, Except.ok.injEq,
                        Prod.mk.injEq] at h2
                      simp [dropChars, h1.1, h1.2, h2.1, h2.2]

theorem walk_chars_off (args : Args) (hcc : args.count_chars = false) :
    ∀ N : Nat, ∀ entries : List (Except Unit Node), sizeOf entries ≤ N →
      (∀ path depth l c evs,
          get_dir_lines path args depth entries = .ok (l, c, evs) → c = 0) ∧
      (∀ path depth l c evs,
          pass2 path args depth entries = .ok (l, c, evs) → c = 0) := by
  intro N
  induction N with
  | zero =>
      intro entries hsz
      exfalso
      cases entries <;> simp at hsz
  | succ N ih =>
      intro entries hsz
      have hpass2 : ∀ path depth l c evs,
          pass2 path args depth entries = .ok (l, c, evs) → c = 0 := by
        intro path depth l c evs h
        cases entries with
        | nil =>
            simp [pass2] at h
            omega
        | cons x rest =>
            have hrest : sizeOf rest ≤ N := by
              cases x <;> simp at hsz <;> omega
            cases x with
            | error u =>
                rw [pass2_skip_err] at h
                exact (ih rest hrest).2 path depth l c evs h
            | ok n =>
                cases n with
                | file nm content =>
                    simp only [pass2] at h
                    exact (ih rest hrest).2 path depth l c evs h
                | dir nm sub =>
                    by_cases hrec : args.recursive
                    · rw [pass2_cons_dir, if_pos hrec] at h
                      cases nm with
                      | error u => simp at h
                      | ok name =>
                          simp only at h
                          by_cases hig : name ∈ args.ignored
                          · rw [if_pos hig] at h
                            exact (ih rest hrest).2 path depth l c evs h
                          · rw [if_neg hig] at h
                            have hsub : sizeOf sub ≤ N := by
                              simp at hsz
                              omega
                            cases hg : get_dir_lines (path ++ '/' :: name)
                                args (depth + 1) sub with
                            | error e => rw [hg] at h; simp at h
                            | ok r =>
                                obtain ⟨l1, c1, evs1⟩ := r
                                rw [hg] at h
                                cases hp : pass2 path args depth rest with
                                | error e2 => rw [hp] at h; simp at h
                                | ok r2 =>
                                    obtain ⟨l2, c2, evs2⟩ := r2
                                    rw [hp] at h
                                    simp only [Except.ok.injEq,
                                      Prod.mk.injEq] at h
                                    have z1 := (ih sub hsub).1 _ _ _ _ _ hg
                                    have z2 := (ih rest hrest).2 _ _ _ _ _ hp
                                    omega
                    · rw [pass2_skip_dir_nonrec path args depth
                          (by simpa using hrec)] at h
                      exact (ih rest hrest).2 path depth l c evs h
      refine ⟨?_, hpass2⟩
      intro path depth l c evs h
      rw [get_dir_lines.eq_def] at h
      cases h1 : pass1 args depth 0 0 entries with
      | error e => rw [h1] at h; simp at h
      | ok r =>
          obtain ⟨lines, chars, evs1⟩ := r
          rw [h1] at h
          cases h2 : pass2 path args depth entries with
          | error e => rw [h2] at h; simp at h
          | ok r2 =>
              obtain ⟨l2, c2, evs2⟩ := r2
              rw [h2] at h
              simp only [Except.ok.injEq, Prod.mk.injEq] at h
              have hlev := pass1_totals args depth entries 0 0
                lines chars evs1 h1
              have hz := levelTotals_chars_off args hcc entries
              have hc2 := hpass2 path depth l2 c2 evs2 h2
              omega

/-- C10: the count-chars flag never influences which lines are counted.
For every file text the line component of `fileCounts` is independent of
the flag, and for every directory walk the line total, the printed trace
and the success-or-error outcome are identical with the flag set or
cleared; with the flag cleared the character totals are 0. -/
theorem claim_C10 (args : Args) (b : Bool) (s : RStr) (path : RStr)
    (depth : Nat) (entries : List (Except Unit Node)) :
    (fileCounts { args with count_chars := b } s).1
      = (fileCounts args s).1 ∧
    (args.count_chars = false → (fileCounts args s).2 = 0) ∧
    dropChars (get_dir_lines path { args with count_chars := b }
        depth entries)
      = dropChars (get_dir_lines path args depth entries) ∧
    (args.count_chars = false →
      ∀ l c evs, get_dir_lines path args depth entries = .ok (l, c, evs) →
        c = 0) :=
  ⟨fileCounts_cc args b s,
   fun hcc => fileCounts_chars_off args hcc s,
   (walk_cc args b (sizeOf entries) entries le_rfl).1 path depth,
   fun hcc l c evs h =>
     (walk_chars_off args hcc (sizeOf entries) entries le_rfl).1
       path depth l c evs h⟩

/-- Witness for C10: one file and a directory walk with `-c` set versus
cleared. -/
theorem claim_C10_witness :
    (fileCounts { (⟨false, false, false, []⟩ : Args) with
          count_chars := true } "ab\ncd\n".toList).1
      = (fileCounts ⟨false, false, false, []⟩ "ab\ncd\n".toList).1 ∧
    ((⟨false, false, false, []⟩ : Args).count_chars = false →
      (fileCounts ⟨false, false, false, []⟩ "ab\ncd\n".toList).2 = 0) ∧
    dropChars (get_dir_lines "r".toList
        { (⟨false, false, false, []⟩ : Args) with count_chars := true } 0
        [.ok (.file (.ok "a".toList) (.ok "x\ny\n".toList))])
      = dropChars (get_dir_lines "r".toList ⟨false, false, false, []⟩ 0
          [.ok (.file (.ok "a".toList) (.ok "x\ny\n".toList))]) ∧
    ((⟨false, false, false, []⟩ : Args).count_chars = false →
      ∀ l c evs,
        get_dir_lines "r".toList ⟨false, false, false, []⟩ 0
            [.ok (.file (.ok "a".toList) (.ok "x\ny\n".toList))]
          = .ok (l, c, evs) → c = 0) :=
  claim_C10 ⟨false, false, false, []⟩ true "ab\ncd\n".toList "r".toList 0
    [.ok (.file (.ok "a".toList) (.ok "x\ny\n".toList))]

theorem withIgnoredScan_skip {x : Except Unit Node}
    (h : lcNameHit x = false)
    (ign : List RStr) (rest : List (Except Unit Node)) :
    withIgnoredScan ign (x :: rest) = withIgnoredScan ign rest := by
  cases x with
  | error u => rfl
  | ok n =>
      cases n with
      | file nm content =>
          cases nm with
          | error u => rfl
          | ok name =>
              simp only [lcNameHit, Node.name,
                decide_eq_false_iff_not] at h
              simp only [withIgnoredScan, if_neg h]
      | dir nm sub =>
          cases nm with
          | error u => rfl
          | ok name =>
              simp only [lcNameHit, Node.name,
                decide_eq_false_iff_not] at h
              simp only [withIgnoredScan, if_neg h]

theorem withIgnoredScan_noLc {entries : List (Except Unit Node)}
    (h : hasLcignore entries = false) :
    ∀ ign : List RStr, withIgnoredScan ign entries = .ok ign := by
  induction entries with
  | nil => intro ign; rfl
  | cons x rest ih =>
      intro ign
      rw [hasLcignore, Bool.or_eq_false_iff] at h
      rw [withIgnoredScan_skip h.1 ign rest]
      exact ih h.2 ign

theorem withIgnoredScan_found {pre post : List (Except Unit Node)}
    (hpre : hasLcignore pre = false) (hpost : hasLcignore post = false)
    (text : RStr) :
    ∀ ign : List RStr,
      withIgnoredScan ign
          (pre ++ .ok (.file (.ok ".lcignore".toList) (.ok text)) :: post)
        = .ok ((rsLines text).map rsTrim ++ [".lcignore".toList]) := by
  induction pre with
  | nil =>
      intro ign
      rw [List.nil_append]
      simp only [withIgnoredScan, if_pos rfl]
      exact withIgnoredScan_noLc hpost _
  | cons x rest ih =>
      intro ign
      rw [hasLcignore, Bool.or_eq_false_iff] at hpre
      rw [List.cons_append, withIgnoredScan_skip hpre.1 ign _]
      exact ih hpre.2 ign

theorem with_ignored_file (cli : List RStr) (nm content : Except Unit RStr) :
    with_ignored cli (.file nm content) = .ok cli := rfl

theorem with_ignored_noLc (cli : List RStr) (nm : Except Unit RStr)
    {entries : List (Except Unit Node)} (h : hasLcignore entries = false) :
    with_ignored cli (.dir nm entries) = .ok cli :=
  withIgnoredScan_noLc h cli

theorem with_ignored_found (cli : List RStr) (nm : Except Unit RStr)
    {pre post : List (Except Unit Node)} (hpre : hasLcignore pre = false)
    (hpost : hasLcignore post = false) (text : RStr) :
    with_ignored cli (.dir nm
        (pre ++ .ok (.file (.ok ".lcignore".toList) (.ok text)) :: post))
      = .ok ((rsLines text).map rsTrim ++ [".lcignore".toList]) :=
  withIgnoredScan_found hpre hpost text cli

/-- C6 counterexample: the scan does not drop blank lines — a `.lcignore`
containing `"a\n\nb"` yields an ignore list containing the empty string,
which is neither a non-empty trimmed line nor the literal `.lcignore`; and
when the root is a file, the ignore set is the command-line list, not
necessarily empty. -/
theorem claim_C6_counterexample :
    withIgnoredScan []
        [.ok (.file (.ok ".lcignore".toList) (.ok "a\n\nb".toList))]
      = .ok ["a".toList, [], "b".toList, ".lcignore".toList] ∧
    ([] : RStr) ∈ ["a".toList, ([] : RStr), "b".toList, ".lcignore".toList] ∧
    ([] : RStr) ≠ ".lcignore".toList ∧ ([] : RStr).isEmpty = true ∧
    with_ignored ["x".toList] (.file (.ok "f".toList) (.ok []))
      = .ok ["x".toList] ∧ ["x".toList] ≠ ([] : List RStr) :=
  ⟨rfl, by decide, by decide, rfl, rfl, by decide⟩

/-- C6 amended: when the root is a file, `with_ignored` returns the
command-line names unchanged (not the empty set); when the root is a
directory without a `.lcignore` entry it likewise returns the command-line
names; when the directory's listing contains a unique readable `.lcignore`
file with text `T`, the resulting ignore list is exactly the trimmed lines
of `T` in order — including the empty strings left by blank lines — with
`.lcignore` appended, the command-line names being discarded. -/
theorem claim_C6_amended (cli : List RStr) (nm : Except Unit RStr)
    (text : RStr) {pre post entries : List (Except Unit Node)}
    (hent : hasLcignore entries = false)
    (hpre : hasLcignore pre = false) (hpost : hasLcignore post = false) :
    (∀ fnm fcontent : Except Unit RStr,
      with_ignored cli (.file fnm fcontent) = .ok cli) ∧
    with_ignored cli (.dir nm entries) = .ok cli ∧
    with_ignored cli (.dir nm
        (pre ++ .ok (.file (.ok ".lcignore".toList) (.ok text)) :: post))
      = .ok ((rsLines text).map rsTrim ++ [".lcignore".toList]) :=
  ⟨fun fnm fcontent => with_ignored_file cli fnm fcontent,
   with_ignored_noLc cli nm hent,
   with_ignored_found cli nm hpre hpost text⟩

/-- Witness for C6 amended: `.lcignore` containing `" a \n\nb"` in a
directory with one other file, and command-line names `["x"]`. -/
theorem claim_C6_amended_witness :
    hasLcignore [.ok (.file (.ok "f".toList) (.ok []))] = false ∧
    ((∀ fnm fcontent : Except Unit RStr,
        with_ignored ["x".toList] (.file fnm fcontent) = .ok ["x".toList]) ∧
      with_ignored ["x".toList]
          (.dir (.ok "r".toList) [.ok (.file (.ok "f".toList) (.ok []))])
        = .ok ["x".toList] ∧
      with_ignored ["x".toList] (.dir (.ok "r".toList)
          ([.ok (.file (.ok "f".toList) (.ok []))]
            ++ .ok (.file (.ok ".lcignore".toList)
                (.ok " a \n\nb".toList)) :: []))
        = .ok ((rsLines " a \n\nb".toList).map rsTrim
            ++ [".lcignore".toList])) :=
  ⟨rfl, claim_C6_amended ["x".toList] (.ok "r".toList) " a \n\nb".toList
    rfl rfl rfl⟩

/-- C9 counterexample: command-line ignore names are not merged — when a
`.lcignore` file is present its contents replace them, so the name `x`
given on the command line is absent from the effective ignore set. -/
theorem claim_C9_counterexample :
    with_ignored ["x".toList]
        (.dir (.ok "r".toList)
          [.ok (.file (.ok ".lcignore".toList) (.ok "a".toList))])
      = .ok ["a".toList, ".lcignore".toList] ∧
    "x".toList ∉ ["a".toList, ".lcignore".toList] :=
  ⟨rfl, by decide⟩

/-- C9 amended: a command-line ignore name remains in the effective ignore
set exactly when no `.lcignore` entry is found (whether the root is a file
or a directory without one); when a readable `.lcignore` is present, its
trimmed lines plus `.lcignore` replace the command-line names, so a
command-line name survives only if it happens to be one of those. -/
theorem claim_C9_amended (cli : List RStr) (nm : Except Unit RStr)
    (text : RStr) {pre post entries : List (Except Unit Node)}
    (hent : hasLcignore entries = false)
    (hpre : hasLcignore pre = false) (hpost : hasLcignore post = false) :
    (∀ fnm fcontent : Except Unit RStr, ∀ x ∈ cli,
      ∀ res, with_ignored cli (.file fnm fcontent) = .ok res → x ∈ res) ∧
    (∀ x ∈ cli,
      ∀ res, with_ignored cli (.dir nm entries) = .ok res → x ∈ res) ∧
    (∀ x ∈ cli, ∀ res,
      with_ignored cli (.dir nm
          (pre ++ .ok (.file (.ok ".lcignore".toList) (.ok text)) :: post))
        = .ok res →
      x ∈ res → x ∈ (rsLines text).map rsTrim ∨ x = ".lcignore".toList) := by
  refine ⟨?_, ?_, ?_⟩
  · intro fnm fcontent x hx res hres
    rw [with_ignored_file cli fnm fcontent] at hres
    cases hres
    exact hx
  · intro x hx res hres
    rw [with_ignored_noLc cli nm hent] at hres
    cases hres
    exact hx
  · intro x hx res hres hmem
    rw [with_ignored_found cli nm hpre hpost text] at hres
    cases hres
    rcases List.mem_append.1 hmem with hm | hm
    · exact Or.inl hm
    · exact Or.inr (by simpa using hm)

/-- Witness for C9 amended at the same concrete configuration as C6. -/
theorem claim_C9_amended_witness :
    hasLcignore [.ok (.file (.ok "f".toList) (.ok []))] = false ∧
    ((∀ fnm fcontent : Except Unit RStr, ∀ x ∈ ["x".toList], ∀ res,
        with_ignored ["x".toList] (.file fnm fcontent) = .ok res → x ∈ res) ∧
     (∀ x ∈ ["x".toList], ∀ res,
        with_ignored ["x".toList]
            (.dir (.ok "r".toList) [.ok (.file (.ok "f".toList) (.ok []))])
          = .ok res → x ∈ res) ∧
     (∀ x ∈ ["x".toList], ∀ res,
        with_ignored ["x".toList] (.dir (.ok "r".toList)
            ([.ok (.file (.ok "f".toList) (.ok []))]
              ++ .ok (.file (.ok ".lcignore".toList)
                  (.ok "a".toList)) :: []))
          = .ok res →
        x ∈ res → x ∈ (rsLines "a".toList).map rsTrim
          ∨ x = ".lcignore".toList)) :=
  ⟨rfl, claim_C9_amended ["x".toList] (.ok "r".toList) "a".toList
    rfl rfl rfl⟩

end LineCounter
